import Mathlib

/-!
Shallow embedding of the zero-shot-learning tutorial notebook
(`ZSL_for_substance_use_text_analysis.ipynb`): the result-aggregation
function `save_model_predictions`, the accuracy cell, and the batched
prediction loop, together with theorems about the spec's claims.
-/

namespace ZSL

/-! ## Rounding (`round(score * 100, 2)` in `save_model_predictions`) -/

/-- Python's `round(x)` on an exact rational: round to the nearest integer,
ties to the even integer (banker's rounding). -/
def pyRound (x : ℚ) : ℤ :=
  if x - ⌊x⌋ < 1/2 then ⌊x⌋
  else if 1/2 < x - ⌊x⌋ then ⌊x⌋ + 1
  else if ⌊x⌋ % 2 = 0 then ⌊x⌋ else ⌊x⌋ + 1

/-- Python's `round(v, 2)`: round to 2 decimal places. -/
def round2dp (v : ℚ) : ℚ := (pyRound (v * 100) : ℚ) / 100

/-- One entry of `scores_as_percentages` in `save_model_predictions`:
`round(score * 100, 2)`. -/
def scoreToPercentage (score : ℚ) : ℚ := round2dp (score * 100)

/-! ## Classification results (output items of the zero-shot pipeline) -/

/-- One output of the classifier pipeline: a dict with keys `sequence`,
`labels` and `scores`, where `labels` is sorted by descending score and
`scores` are the matching raw scores. -/
structure ClassificationResult where
  sequence : String
  labels : List String
  scores : List ℚ
deriving DecidableEq

/-! ## Row construction in `save_model_predictions` -/

/-- Lookup in a Python dict built from an association list
(`dict(zip(keys, values))`): the last assignment to a key wins. -/
def dictGet (d : List (String × ℚ)) (k : String) : Option ℚ :=
  d.foldl (fun acc p => if p.1 = k then some p.2 else acc) none

/-- The percentage placed in candidate-label column `label` of a Result Row:
`save_model_predictions` builds `dict(zip(labels, scores_as_percentages))`
and the DataFrame matches that dict's entries to columns by label name.
A label absent from the dict would be NaN in pandas; the embedding defaults
it to 0, and theorems assume the scorer invariant that every candidate
label is present. -/
def rowPct (result : ClassificationResult) (label : String) : ℚ :=
  (dictGet (result.labels.zip (result.scores.map scoreToPercentage)) label).getD 0

/-- Fold underlying pandas `DataFrame.idxmax(axis=1)`: keep the current best
column, replacing it only on a strictly greater value, so the first column
attaining the maximum is returned. -/
def idxmaxAux (f : String → ℚ) (best : String) : List String → String
  | [] => best
  | l :: ls => if f best < f l then idxmaxAux f l ls else idxmaxAux f best ls

/-- pandas `DataFrame.idxmax(axis=1)` over the given columns: the first
column holding the row's maximum value (`none` for no columns). -/
def idxmax (f : String → ℚ) : List String → Option String
  | [] => none
  | c :: cs => some (idxmaxAux f c cs)

/-- The `predicted_label` column written by `save_model_predictions`:
`results_df[candidate_labels].idxmax(axis=1)`. -/
def predictedLabel (candidateLabels : List String) (result : ClassificationResult) :
    Option String :=
  idxmax (rowPct result) candidateLabels

/-- The predicted label used by the accuracy cell: `result['labels'][0]`
(the top of the scorer's descending-score ordering). -/
def evalPredictedLabel (result : ClassificationResult) : Option String :=
  result.labels.head?

/-! ## The accuracy cell (Cell 6) -/

/-- Outcome of running the accuracy cell. -/
inductive EvalOutcome
  | ok (accuracy : ℚ)
  | keyError
  | zeroDivisionError
deriving DecidableEq

/-- One comparison `predicted == ground_truth` of the accuracy cell; a
missing ground-truth cell is pandas NaN (`none` here) and compares unequal
to every predicted string. -/
def matchesGroundTruth (predicted : String) : Option String → Bool
  | some s => predicted == s
  | none => false

/-- The accuracy-cell loop: over `zip(predicted_labels, ground_truth_labels)`,
`total_count += 1` and `correct_count += predicted == ground_truth`;
returns `(correct_count, total_count)`. -/
def evalCounts (predictedLabels : List String) (groundTruths : List (Option String)) :
    ℕ × ℕ :=
  (predictedLabels.zip groundTruths).foldl
    (fun acc pg => (acc.1 + (if matchesGroundTruth pg.1 pg.2 then 1 else 0), acc.2 + 1))
    (0, 0)

/-- The accuracy cell as a whole. `handAnnotated = none` models an input
DataFrame with no `hand_annotated` column, where `dataframe['hand_annotated']`
raises `KeyError`; `correct_count / total_count` with `total_count = 0`
raises `ZeroDivisionError`. -/
def evaluateAccuracy (predictedLabels : List String)
    (handAnnotated : Option (List (Option String))) : EvalOutcome :=
  match handAnnotated with
  | none => .keyError
  | some gts =>
    if (evalCounts predictedLabels gts).2 = 0 then .zeroDivisionError
    else .ok (((evalCounts predictedLabels gts).1 : ℚ) /
      ((evalCounts predictedLabels gts).2 : ℚ))

/-- Modelled from the spec: the confusion matrix (Cell 7 calls
`ConfusionMatrixDisplay.from_predictions`, whose computation is in
scikit-learn, not in this repository): the cell at (true label `t`,
predicted label `p`) counts the records with that ground-truth/prediction
pair. -/
def confusionCell (groundTruths predictedLabels : List String) (t p : String) : ℕ :=
  ((groundTruths.zip predictedLabels).filter (fun q => q.1 == t && q.2 == p)).length

/-! ## Report writing in `save_model_predictions` -/

/-- pandas column assignment `df[c] = ...`: a new column is appended at the
end of the column order; an existing column is overwritten in place. -/
def dfAssignColumn (cols : List String) (c : String) : List String :=
  if c ∈ cols then cols else cols ++ [c]

/-- The column order of `results_df` in `save_model_predictions`:
`pd.DataFrame(rows, columns=['text', *candidate_labels])`, then the
`predicted_label` assignment, then the `hand_annotated` assignment when the
input DataFrame has that column. -/
def resultColumns (candidateLabels : List String) (inputHasHandAnnotated : Bool) :
    List String :=
  let cols := "text" :: candidateLabels
  let cols := dfAssignColumn cols "predicted_label"
  if inputHasHandAnnotated then dfAssignColumn cols "hand_annotated" else cols

/-- A flat model of the files and directories touched by
`save_model_predictions`. -/
structure FileSystem where
  dirs : List String
  files : List (String × String)
deriving DecidableEq

/-- `os.makedirs(d, exist_ok=True)`: creates the directory when absent and
is a no-op (not an error) when it already exists. -/
def makedirs (fs : FileSystem) (d : String) : FileSystem :=
  if d ∈ fs.dirs then fs else { fs with dirs := d :: fs.dirs }

/-- `results_df.to_csv(path, index=False)`: creates the file or replaces an
existing file's content wholesale (no append). -/
def writeFile (fs : FileSystem) (path content : String) : FileSystem :=
  { fs with files := (path, content) :: fs.files.filter (fun pc => pc.1 != path) }

/-- Content of the file at `path`, when present. -/
def readFile (fs : FileSystem) (path : String) : Option String :=
  fs.files.lookup path

/-- The I/O tail of `save_model_predictions`:
`os.makedirs('Outputs', exist_ok=True)` followed by
`results_df.to_csv(os.path.join('Outputs', file_name), index=False)`. -/
def saveOutputFile (fs : FileSystem) (fileName content : String) : FileSystem :=
  writeFile (makedirs fs "Outputs") ("Outputs/" ++ fileName) content

/-! ## The batched prediction loop (Cell 4) -/

/-- Modelled from the spec: consecutive batches of at most `batchSize`
records, the last possibly smaller (the batching of
`classifier(input_dataset, candidate_labels, batch_size=4)` happens inside
the transformers pipeline, which is not part of this repository). -/
def chunked (batchSize : ℕ) : List α → List (List α)
  | [] => []
  | x :: xs => (x :: xs.take (batchSize - 1)) :: chunked batchSize (xs.drop (batchSize - 1))
termination_by l => l.length
decreasing_by simp only [List.length_drop, List.length_cons]; omega

/-- The Classification Result for one text: the scorer (an opaque oracle
`score : text → labels → (label, score) pairs sorted by descending score`)
supplies the `labels` and `scores` fields of the pipeline's output dict. -/
def scoreResult (score : String → List String → List (String × ℚ))
    (labels : List String) (text : String) : ClassificationResult :=
  { sequence := text
  , labels := (score text labels).map Prod.fst
  , scores := (score text labels).map Prod.snd }

/-- Modelled from the spec: the Batch Runner
(`classifier(input_dataset, candidate_labels, batch_size=4)` iterated by the
Cell 4 loop; the pipeline's batching is in the transformers library, not in
this repository): records are grouped into consecutive batches of at most
`batchSize`, each batch is scored in order, and the per-record results are
concatenated in input order. -/
def batchRun (score : String → List String → List (String × ℚ))
    (labels : List String) (batchSize : ℕ) (texts : List String) :
    List ClassificationResult :=
  ((chunked batchSize texts).map (fun batch => batch.map (scoreResult score labels))).flatten

/-! ## Statement-side predicates and concrete fixtures -/

/-- `p` is the first label of `ls` attaining the maximum of `f`: it is a
maximizer, and in any decomposition of `ls` around this occurrence of `p`,
every label before it scores strictly less. -/
def IsFirstArgmax (f : String → ℚ) (ls : List String) (p : String) : Prop :=
  p ∈ ls ∧ (∀ l ∈ ls, f l ≤ f p) ∧
    ∀ pre suf, ls = pre ++ p :: suf → ∀ l ∈ pre, f l < f p

/-- The spec's worked example: `text="I love legal cannabis"`, scorer output
`pro=0.91, anti=0.09` (already in descending-score order). -/
def sampleResult : ClassificationResult :=
  ⟨"I love legal cannabis", ["pro", "anti"], [91/100, 9/100]⟩

/-- A pipeline output whose top raw score (`B` at 0.500004) differs from
the argmax of the rounded percentages (0.500004 and 0.499996 both round to
50.00, and the declared order `["A", "B"]` puts `A` first). The scores sum
to 1, so the input is reachable even under softmax-normalized scoring. -/
def tieResult : ClassificationResult :=
  ⟨"t", ["B", "A"], [125001/250000, 124999/250000]⟩

/-- A concrete scorer for witnesses: every label gets score 1/2. -/
def halfScorer (_text : String) (labels : List String) : List (String × ℚ) :=
  labels.map (fun l => (l, 1/2))

/-! ## Lemmas about `idxmaxAux` and `idxmax` -/

theorem idxmaxAux_spec (f : String → ℚ) :
    ∀ (ls : List String) (b : String),
      (idxmaxAux f b ls = b ∧ ∀ l ∈ ls, f l ≤ f b) ∨
      ∃ i : Fin ls.length, idxmaxAux f b ls = ls.get i ∧ f b < f (ls.get i) ∧
        (∀ j : Fin ls.length, (j : ℕ) < (i : ℕ) → f (ls.get j) < f (ls.get i)) ∧
        ∀ l ∈ ls, f l ≤ f (ls.get i)
  | [], b => by
      left
      exact ⟨rfl, by simp⟩
  | x :: xs, b => by
      simp only [idxmaxAux]
      by_cases hbx : f b < f x
      · rw [if_pos hbx]
        rcases idxmaxAux_spec f xs x with ⟨he, hall⟩ | ⟨i, he, hlt, hfirst, hall⟩
        · right
          refine ⟨⟨0, by simp⟩, he, hbx, ?_, ?_⟩
          · intro j hj
            have hj' : (j : ℕ) < 0 := hj
            exact absurd hj' (by omega)
          · intro l hl
            rcases List.mem_cons.mp hl with rfl | hl
            · exact le_refl _
            · exact hall l hl
        · right
          refine ⟨⟨i.1 + 1, Nat.succ_lt_succ i.isLt⟩, he, lt_trans hbx hlt, ?_, ?_⟩
          · rintro ⟨j, hj⟩ hj'
            have hj'' : j < i.1 + 1 := hj'
            cases j with
            | zero => exact hlt
            | succ k =>
                have hk : k < xs.length := by
                  simp only [List.length_cons] at hj
                  omega
                exact hfirst ⟨k, hk⟩ (show k < i.1 by omega)
          · intro l hl
            rcases List.mem_cons.mp hl with rfl | hl
            · exact le_of_lt hlt
            · exact hall l hl
      · rw [if_neg hbx]
        push_neg at hbx
        rcases idxmaxAux_spec f xs b with ⟨he, hall⟩ | ⟨i, he, hlt, hfirst, hall⟩
        · left
          refine ⟨he, ?_⟩
          intro l hl
          rcases List.mem_cons.mp hl with rfl | hl
          · exact hbx
          · exact hall l hl
        · right
          refine ⟨⟨i.1 + 1, Nat.succ_lt_succ i.isLt⟩, he, hlt, ?_, ?_⟩
          · rintro ⟨j, hj⟩ hj'
            have hj'' : j < i.1 + 1 := hj'
            cases j with
            | zero => exact lt_of_le_of_lt hbx hlt
            | succ k =>
                have hk : k < xs.length := by
                  simp only [List.length_cons] at hj
                  omega
                exact hfirst ⟨k, hk⟩ (show k < i.1 by omega)
          · intro l hl
            rcases List.mem_cons.mp hl with rfl | hl
            · exact le_of_lt (lt_of_le_of_lt hbx hlt)
            · exact hall l hl

theorem idxmax_spec (f : String → ℚ) (c : String) (cs : List String) :
    ∃ i : Fin (c :: cs).length, idxmaxAux f c cs = (c :: cs).get i ∧
      (∀ j : Fin (c :: cs).length, (j : ℕ) < (i : ℕ) →
        f ((c :: cs).get j) < f ((c :: cs).get i)) ∧
      ∀ l ∈ c :: cs, f l ≤ f ((c :: cs).get i) := by
  rcases idxmaxAux_spec f cs c with ⟨he, hall⟩ | ⟨i, he, hlt, hfirst, hall⟩
  · refine ⟨⟨0, by simp⟩, he, ?_, ?_⟩
    · intro j hj
      have hj' : (j : ℕ) < 0 := hj
      exact absurd hj' (by omega)
    · intro l hl
      rcases List.mem_cons.mp hl with rfl | hl
      · exact le_refl _
      · exact hall l hl
  · refine ⟨⟨i.1 + 1, Nat.succ_lt_succ i.isLt⟩, he, ?_, ?_⟩
    · rintro ⟨j, hj⟩ hj'
      have hj'' : j < i.1 + 1 := hj'
      cases j with
      | zero => exact hlt
      | succ k =>
          have hk : k < cs.length := by
            simp only [List.length_cons] at hj
            omega
          exact hfirst ⟨k, hk⟩ (show k < i.1 by omega)
    · intro l hl
      rcases List.mem_cons.mp hl with rfl | hl
      · exact le_of_lt hlt
      · exact hall l hl

/-- In a duplicate-free list, the block before an occurrence of `p` is
exactly as long as `p`'s index. -/
theorem length_pre_eq_index {l pre suf : List String} {p : String}
    (hnd : l.Nodup) (hdec : l = pre ++ p :: suf)
    (i : Fin l.length) (hpi : l.get i = p) : pre.length = (i : ℕ) := by
  subst hdec
  have hlen : pre.length < (pre ++ p :: suf).length := by
    simp [List.length_append]
  have hget : (pre ++ p :: suf).get ⟨pre.length, hlen⟩ = p := by
    simp [List.get_eq_getElem, List.getElem_append_right]
  have heq : (pre ++ p :: suf).get i = (pre ++ p :: suf).get ⟨pre.length, hlen⟩ := by
    rw [hpi, hget]
  have hif : i = ⟨pre.length, hlen⟩ := hnd.get_inj_iff.mp heq
  exact (congrArg Fin.val hif).symm

/-- The element at a strictly-first-maximal index of a duplicate-free list
satisfies `IsFirstArgmax`. -/
theorem isFirstArgmax_of_index (f : String → ℚ) (L : List String) (p : String)
    (hnd : L.Nodup) (i : Fin L.length) (hpi : L.get i = p)
    (hfirst : ∀ j : Fin L.length, (j : ℕ) < (i : ℕ) → f (L.get j) < f (L.get i))
    (hall : ∀ l ∈ L, f l ≤ f (L.get i)) :
    IsFirstArgmax f L p := by
  refine ⟨?_, ?_, ?_⟩
  · rw [← hpi]
    exact List.get_mem L i.1 i.2
  · intro l hl
    rw [← hpi]
    exact hall l hl
  · intro pre suf hdec l hl
    subst hdec
    have hplen : pre.length = (i : ℕ) := length_pre_eq_index hnd rfl i hpi
    obtain ⟨j, hjget⟩ := List.mem_iff_get.mp hl
    have hjlt : (j : ℕ) < (pre ++ p :: suf).length := by
      rw [List.length_append]
      have := j.isLt
      omega
    have hj_lt_i : (j : ℕ) < (i : ℕ) := by
      have := j.isLt
      omega
    have hgetl : (pre ++ p :: suf).get ⟨j.1, hjlt⟩ = l := by
      rw [← hjget]
      simp [List.get_eq_getElem, List.getElem_append_left, j.isLt]
    have hres := hfirst ⟨j.1, hjlt⟩ hj_lt_i
    rw [hgetl, hpi] at hres
    exact hres

/-! ## Claim C1 -/

/-- **C1.** For every Result Row produced by `save_model_predictions`,
`predicted_label` equals the candidate label whose rounded percentage is
maximal among all candidate labels in that row; when two or more candidate
labels share the maximal rounded percentage, `predicted_label` is the one
occurring earliest in the declared candidate-label order. -/
theorem predictedLabel_first_argmax
    (result : ClassificationResult) (candidateLabels : List String) (p : String)
    (hnd : candidateLabels.Nodup)
    (hp : predictedLabel candidateLabels result = some p) :
    IsFirstArgmax (rowPct result) candidateLabels p := by
  cases candidateLabels with
  | nil => simp [predictedLabel, idxmax] at hp
  | cons c cs =>
    have hp' : idxmaxAux (rowPct result) c cs = p := by
      simpa [predictedLabel, idxmax] using hp
    obtain ⟨i, he, hfirst, hall⟩ := idxmax_spec (rowPct result) c cs
    rw [he] at hp'
    exact isFirstArgmax_of_index (rowPct result) (c :: cs) p hnd i hp' hfirst hall

/-- Witness for C1 at the spec's worked example
(`pro=0.91, anti=0.09`, declared order `["pro", "anti"]`). -/
theorem predictedLabel_first_argmax_witness :
    IsFirstArgmax (rowPct sampleResult) ["pro", "anti"] "pro" := by
  apply predictedLabel_first_argmax
  · decide
  · simp [predictedLabel, idxmax, idxmaxAux, rowPct, dictGet, sampleResult]
    norm_num [scoreToPercentage, round2dp, pyRound]

/-! ## Claim C3 -/

/-- **C3 (counterexample).** A Classification Result obeying the scorer
invariant (labels sorted by descending raw score, scores in `[0, 1]`
summing to 1, labels a permutation of the candidate set `["A", "B"]`): with
raw scores `B = 0.500004 > A = 0.499996` the label at position 0 is `B`,
yet both percentages round to 50.00, so the `predicted_label` written by
`save_model_predictions` is the first declared label `A` — the displayed
and the decided label disagree. -/
theorem eval_vs_saved_label_counterexample :
    tieResult.labels.Perm ["A", "B"] ∧
    tieResult.scores.Chain' (fun a b => b ≤ a) ∧
    tieResult.scores.sum = 1 ∧
    (∀ s ∈ tieResult.scores, 0 ≤ s ∧ s ≤ 1) ∧
    evalPredictedLabel tieResult = some "B" ∧
    predictedLabel ["A", "B"] tieResult = some "A" ∧
    some "B" ≠ some "A" := by
  refine ⟨by decide, by norm_num [tieResult], by norm_num [tieResult], ?_, rfl, ?_, by decide⟩
  · intro s hs
    simp only [tieResult] at hs
    rcases List.mem_cons.mp hs with rfl | hs
    · constructor <;> norm_num
    · rcases List.mem_cons.mp hs with rfl | hs
      · constructor <;> norm_num
      · simp at hs
  · simp [predictedLabel, idxmax, idxmaxAux, rowPct, dictGet, tieResult]
    norm_num [scoreToPercentage, round2dp, pyRound]

/-- **C3 (amended).** The label used for evaluation (position 0 of the
scorer's ordering) and the `predicted_label` written to the Result Row agree
whenever the position-0 label's rounded percentage is strictly greater than
every other candidate label's; when rounded percentages tie, the two can
disagree (see the counterexample). -/
theorem eval_vs_saved_label_agree_of_unique_max
    (result : ClassificationResult) (candidateLabels : List String) (l0 : String)
    (h0 : result.labels.head? = some l0)
    (hmem : l0 ∈ candidateLabels)
    (hmax : ∀ l ∈ candidateLabels, l ≠ l0 → rowPct result l < rowPct result l0) :
    evalPredictedLabel result = some l0 ∧
    predictedLabel candidateLabels result = some l0 := by
  refine ⟨h0, ?_⟩
  cases candidateLabels with
  | nil => simp at hmem
  | cons c cs =>
    obtain ⟨i, he, hfirst, hall⟩ := idxmax_spec (rowPct result) c cs
    have hrmem : idxmaxAux (rowPct result) c cs ∈ c :: cs := by
      rw [he]
      exact List.get_mem _ i.1 i.2
    have hrmax : rowPct result l0 ≤ rowPct result (idxmaxAux (rowPct result) c cs) := by
      have h := hall l0 hmem
      rwa [← he] at h
    by_cases hrl : idxmaxAux (rowPct result) c cs = l0
    · rw [show predictedLabel (c :: cs) result =
          some (idxmaxAux (rowPct result) c cs) from rfl, hrl]
    · exact absurd hrmax (not_le.mpr (hmax _ hrmem hrl))

/-- Witness for the amended C3 at the spec's worked example, where `pro`'s
rounded percentage (91.0) strictly exceeds `anti`'s (9.0). -/
theorem eval_vs_saved_label_agree_witness :
    evalPredictedLabel sampleResult = some "pro" ∧
    predictedLabel ["pro", "anti"] sampleResult = some "pro" := by
  apply eval_vs_saved_label_agree_of_unique_max
  · rfl
  · decide
  · intro l hl hne
    rcases List.mem_cons.mp hl with rfl | hl
    · exact absurd rfl hne
    · rcases List.mem_cons.mp hl with rfl | hl
      · simp [rowPct, dictGet, sampleResult]
        norm_num [scoreToPercentage, round2dp, pyRound]
      · simp at hl

/-! ## Lemmas about `dictGet` -/

theorem dictGet_foldl_no_key (k : String) :
    ∀ (d : List (String × ℚ)) (acc : Option ℚ), (∀ q ∈ d, q.1 ≠ k) →
      d.foldl (fun acc p => if p.1 = k then some p.2 else acc) acc = acc
  | [], _, _ => rfl
  | q :: d, acc, h => by
      simp only [List.foldl_cons]
      rw [if_neg (h q (List.mem_cons_self q d))]
      exact dictGet_foldl_no_key k d acc (fun q' hq' => h q' (List.mem_cons_of_mem q hq'))

theorem dictGet_foldl_mem (k : String) (v : ℚ) :
    ∀ (d : List (String × ℚ)) (acc : Option ℚ),
      (d.map Prod.fst).Nodup → (k, v) ∈ d →
      d.foldl (fun acc p => if p.1 = k then some p.2 else acc) acc = some v
  | [], _, _, hmem => absurd hmem (List.not_mem_nil _)
  | q :: d, acc, hnd, hmem => by
      rw [List.map_cons, List.nodup_cons] at hnd
      obtain ⟨hknotin, hndtail⟩ := hnd
      simp only [List.foldl_cons]
      rcases List.mem_cons.mp hmem with rfl | hmem'
      · rw [if_pos rfl]
        apply dictGet_foldl_no_key
        intro q' hq' hk
        apply hknotin
        have hmm : q'.1 ∈ d.map Prod.fst := List.mem_map_of_mem Prod.fst hq'
        rwa [hk] at hmm
      · by_cases hq : q.1 = k
        · exfalso
          apply hknotin
          rw [hq]
          exact List.mem_map_of_mem Prod.fst hmem'
        · rw [if_neg hq]
          exact dictGet_foldl_mem k v d acc hndtail hmem'

/-- With duplicate-free keys, the dict lookup returns the value zipped with
the key. -/
theorem dictGet_eq_of_nodup_keys {k : String} {v : ℚ} {d : List (String × ℚ)}
    (hnd : (d.map Prod.fst).Nodup) (hmem : (k, v) ∈ d) :
    dictGet d k = some v :=
  dictGet_foldl_mem k v d none hnd hmem

/-! ## Claim C10 -/

/-- **C10.** The percentage placed in a candidate label's column is the one
computed from that same label's score — values are matched to columns by
label name, not by position — so the Result Row is correct even though the
scorer returns its (label, score) pairs sorted by descending score rather
than in the declared candidate-label order. -/
theorem rowPct_matches_by_label
    (result : ClassificationResult) (l : String) (s : ℚ)
    (hlen : result.scores.length = result.labels.length)
    (hnd : result.labels.Nodup)
    (hmem : (l, s) ∈ result.labels.zip result.scores) :
    rowPct result l = scoreToPercentage s := by
  unfold rowPct
  have hmem' : (l, scoreToPercentage s) ∈
      result.labels.zip (result.scores.map scoreToPercentage) := by
    rw [List.zip_map_right]
    exact List.mem_map_of_mem (Prod.map id scoreToPercentage) hmem
  have hkeys :
      ((result.labels.zip (result.scores.map scoreToPercentage)).map Prod.fst).Nodup := by
    rw [List.map_fst_zip]
    · exact hnd
    · rw [List.length_map, hlen]
  rw [dictGet_eq_of_nodup_keys hkeys hmem']
  rfl

/-- Witness for C10: in the worked example the scorer lists `pro` first, and
the `anti` column still receives `anti`'s rounded score. -/
theorem rowPct_matches_by_label_witness :
    rowPct sampleResult "anti" = scoreToPercentage (9/100) := by
  apply rowPct_matches_by_label
  · rfl
  · decide
  · simp [sampleResult]

/-! ## Claim C4 -/

theorem pyRound_cases (x : ℚ) :
    pyRound x = ⌊x⌋ ∨ (pyRound x = ⌊x⌋ + 1 ∧ 1/2 ≤ x - ⌊x⌋) := by
  unfold pyRound
  split_ifs with h1 h2 h3
  · exact Or.inl rfl
  · exact Or.inr ⟨rfl, le_of_lt h2⟩
  · exact Or.inl rfl
  · exact Or.inr ⟨rfl, not_lt.mp h1⟩

theorem pyRound_nonneg {x : ℚ} (hx : 0 ≤ x) : 0 ≤ pyRound x := by
  have hf : (0 : ℤ) ≤ ⌊x⌋ := Int.floor_nonneg.mpr hx
  rcases pyRound_cases x with h | ⟨h, _⟩ <;> rw [h] <;> omega

theorem pyRound_le_of_le {x : ℚ} {B : ℤ} (hx : x ≤ (B : ℚ)) : pyRound x ≤ B := by
  rcases pyRound_cases x with h | ⟨h, hhalf⟩
  · rw [h]
    calc ⌊x⌋ ≤ ⌊(B : ℚ)⌋ := Int.floor_le_floor hx
    _ = B := Int.floor_intCast B
  · rw [h]
    have hfl : (⌊x⌋ : ℚ) ≤ x := Int.floor_le x
    have hlt : (⌊x⌋ : ℚ) < (B : ℚ) := by linarith
    have : ⌊x⌋ < B := by exact_mod_cast hlt
    omega

/-- **C4.** For every raw score `s ∈ [0, 1]`, `save_model_predictions`
converts it to exactly `round(s * 100, 2)`; the resulting percentage lies in
`[0, 100]` and has at most 2 decimal places (its value times 100 is an
integer, i.e. has denominator 1). -/
theorem scoreToPercentage_bounds (s : ℚ) (h0 : 0 ≤ s) (h1 : s ≤ 1) :
    0 ≤ scoreToPercentage s ∧ scoreToPercentage s ≤ 100 ∧
    (scoreToPercentage s * 100).den = 1 := by
  have hx0 : (0 : ℚ) ≤ s * 100 * 100 := by
    nlinarith
  have hx1 : s * 100 * 100 ≤ ((10000 : ℤ) : ℚ) := by
    push_cast
    nlinarith
  have hge : 0 ≤ pyRound (s * 100 * 100) := pyRound_nonneg hx0
  have hle : pyRound (s * 100 * 100) ≤ 10000 := pyRound_le_of_le hx1
  unfold scoreToPercentage round2dp
  refine ⟨?_, ?_, ?_⟩
  · apply div_nonneg _ (by norm_num : (0 : ℚ) ≤ 100)
    exact_mod_cast hge
  · rw [div_le_iff₀ (by norm_num : (0 : ℚ) < 100)]
    have hc : (pyRound (s * 100 * 100) : ℚ) ≤ 10000 := by exact_mod_cast hle
    linarith
  · rw [div_mul_cancel₀ _ (by norm_num : (100 : ℚ) ≠ 0)]
    exact Rat.den_intCast _

/-- Witness for C4 at the worked example's top score `0.91`. -/
theorem scoreToPercentage_bounds_witness :
    0 ≤ scoreToPercentage (91/100) ∧ scoreToPercentage (91/100) ≤ 100 ∧
    (scoreToPercentage (91/100) * 100).den = 1 :=
  scoreToPercentage_bounds (91/100) (by norm_num) (by norm_num)

/-! ## Lemmas about `evalCounts` -/

theorem evalCounts_foldl (zs : List (String × Option String)) :
    ∀ (a b : ℕ),
      zs.foldl
        (fun acc pg => (acc.1 + (if matchesGroundTruth pg.1 pg.2 then 1 else 0), acc.2 + 1))
        (a, b) =
      (a + zs.countP (fun pg => matchesGroundTruth pg.1 pg.2), b + zs.length) := by
  induction zs with
  | nil => intro a b; simp
  | cons z zs ih =>
      intro a b
      simp only [List.foldl_cons, List.countP_cons, List.length_cons, ih]
      refine Prod.ext ?_ ?_ <;> simp <;> omega

/-- The accuracy-cell counters: matches of `predicted == ground_truth` over
the zipped records, and the number of zipped records. -/
theorem evalCounts_eq (preds : List String) (gts : List (Option String)) :
    evalCounts preds gts =
      ((preds.zip gts).countP (fun pg => matchesGroundTruth pg.1 pg.2),
       (preds.zip gts).length) := by
  unfold evalCounts
  simpa using evalCounts_foldl (preds.zip gts) 0 0

/-! ## Claim C2 -/

/-- **C2 (counterexample).** Two records, the second with its ground truth
missing: the accuracy cell does not skip — it returns the accuracy 1/2,
counting the unlabeled record as incorrect (and 1/2 is also not the
labeled-subset accuracy, which would be 1/1). -/
theorem evaluateAccuracy_not_skipped_counterexample :
    evaluateAccuracy ["pro", "pro"] (some [some "pro", none]) = .ok (1/2) ∧
    EvalOutcome.ok (1/2) ≠ .ok (1/1) := by
  constructor
  · simp [evaluateAccuracy, evalCounts, matchesGroundTruth]
  · intro h
    rw [EvalOutcome.ok.injEq] at h
    norm_num at h

/-- **C2 (amended).** The accuracy cell never computes a partial accuracy
over only the labeled subset, but it does not skip on per-record missing
ground truth either: whenever the `hand_annotated` column exists and at
least one record is zipped, it returns correct/total over all zipped
records, a record with absent ground truth counting as incorrect; a wholly
absent column instead raises `KeyError`. -/
theorem evaluateAccuracy_all_records_counted
    (preds : List String) (gts : List (Option String))
    (hne : preds.zip gts ≠ []) :
    evaluateAccuracy preds (some gts) =
      .ok (((preds.zip gts).countP (fun pg => matchesGroundTruth pg.1 pg.2) : ℚ) /
        ((preds.zip gts).length : ℚ)) ∧
    evaluateAccuracy preds none = .keyError := by
  constructor
  · simp only [evaluateAccuracy, evalCounts_eq]
    rw [if_neg (by simpa [List.length_eq_zero] using hne)]
  · rfl

/-- Witness for the amended C2: one record with missing ground truth yields
the accuracy 0/1, and an absent column yields `KeyError`. -/
theorem evaluateAccuracy_all_records_counted_witness :
    evaluateAccuracy ["a"] (some [none]) = .ok 0 ∧
    evaluateAccuracy ["a"] none = .keyError := by
  have h := evaluateAccuracy_all_records_counted ["a"] [none] (by decide)
  refine ⟨?_, h.2⟩
  rw [h.1]
  simp [matchesGroundTruth]

/-! ## Claim C9 -/

/-- **C9.** Run on an empty sequence of records (zero predictions, zero
ground truths, but the `hand_annotated` column present), the accuracy
computation divides by zero and raises `ZeroDivisionError` — it neither
returns a value nor a skipped result. -/
theorem evaluateAccuracy_empty_zero_division :
    evaluateAccuracy [] (some []) = .zeroDivisionError := rfl

/-! ## Claim C7 -/

theorem beq_pair_false {a b t p : String} (h : ¬(t = a ∧ p = b)) :
    (a == t && b == p) = false := by
  cases h1 : (a == t) with
  | false => simp [h1]
  | true =>
      cases h2 : (b == p) with
      | false => simp [h1, h2]
      | true => exact absurd ⟨(eq_of_beq h1).symm, (eq_of_beq h2).symm⟩ h

/-- **C7.** With every record carrying ground truth, accuracy equals the
count of records whose predicted label equals their ground truth divided by
the record count; in the spec's scenario (ground truths
`["pro","anti","pro"]`, predictions all `"pro"`) accuracy is 2/3 and the
confusion matrix has cell (anti, pro) = 1 and cell (pro, pro) = 2, every
other cell 0. -/
theorem accuracy_formula_and_confusion :
    (∀ (preds gts : List String), preds.length = gts.length → gts ≠ [] →
      evaluateAccuracy preds (some (gts.map some)) =
        .ok (((preds.zip gts).countP (fun pg => pg.1 == pg.2) : ℚ) /
          (gts.length : ℚ))) ∧
    evaluateAccuracy ["pro", "pro", "pro"] (some (["pro", "anti", "pro"].map some)) =
      .ok (2/3) ∧
    confusionCell ["pro", "anti", "pro"] ["pro", "pro", "pro"] "anti" "pro" = 1 ∧
    confusionCell ["pro", "anti", "pro"] ["pro", "pro", "pro"] "pro" "pro" = 2 ∧
    ∀ t p : String, ¬(t = "anti" ∧ p = "pro") → ¬(t = "pro" ∧ p = "pro") →
      confusionCell ["pro", "anti", "pro"] ["pro", "pro", "pro"] t p = 0 := by
  refine ⟨?_, ?_, rfl, rfl, ?_⟩
  · intro preds gts hlen hne
    have hcount : evalCounts preds (gts.map some) =
        ((preds.zip gts).countP (fun pg => pg.1 == pg.2), gts.length) := by
      rw [evalCounts_eq, List.zip_map_right, List.countP_map, List.length_map,
        List.length_zip, hlen, Nat.min_self]
      rfl
    simp only [evaluateAccuracy, hcount]
    rw [if_neg (by simpa [List.length_eq_zero] using hne)]
  · simp [evaluateAccuracy, evalCounts, matchesGroundTruth]
  · intro t p h1 h2
    have hz : (["pro", "anti", "pro"].zip ["pro", "pro", "pro"]) =
        [("pro", "pro"), ("anti", "pro"), ("pro", "pro")] := rfl
    simp [confusionCell, hz, List.filter_cons, beq_pair_false h2, beq_pair_false h1]

/-! ## Lemmas about `chunked` and `batchRun` -/

/-- Concatenating the consecutive batches restores the input sequence. -/
theorem chunked_flatten (batchSize : ℕ) : ∀ (l : List α), (chunked batchSize l).flatten = l
  | [] => by simp [chunked]
  | x :: xs => by
      rw [chunked]
      simp only [List.flatten_cons]
      rw [chunked_flatten batchSize (xs.drop (batchSize - 1))]
      simp [List.take_append_drop]
  termination_by l => l.length
  decreasing_by simp only [List.length_drop, List.length_cons]; omega

/-- Batched scoring is the per-record map. -/
theorem batchRun_eq_map (score : String → List String → List (String × ℚ))
    (labels : List String) (batchSize : ℕ) (texts : List String) :
    batchRun score labels batchSize texts = texts.map (scoreResult score labels) := by
  unfold batchRun
  conv_rhs => rw [← chunked_flatten batchSize texts]
  rw [List.map_flatten]

/-! ## Claim C5 -/

/-- **C5.** For every input sequence, the batched prediction loop produces
exactly one Classification Result per input record, in the order of the
input records, regardless of the batch size used. -/
theorem batchRun_one_result_per_record
    (score : String → List String → List (String × ℚ)) (labels : List String)
    (batchSize : ℕ) (texts : List String) (_hbs : 1 ≤ batchSize) :
    batchRun score labels batchSize texts = texts.map (scoreResult score labels) ∧
    (batchRun score labels batchSize texts).length = texts.length := by
  refine ⟨batchRun_eq_map score labels batchSize texts, ?_⟩
  rw [batchRun_eq_map score labels batchSize texts]
  exact List.length_map texts (scoreResult score labels)

/-- Witness for C5 with three records and batch size 2 (batches of 2 and 1). -/
theorem batchRun_one_result_per_record_witness :
    batchRun halfScorer ["A", "B"] 2 ["t1", "t2", "t3"] =
      ["t1", "t2", "t3"].map (scoreResult halfScorer ["A", "B"]) ∧
    (batchRun halfScorer ["A", "B"] 2 ["t1", "t2", "t3"]).length = 3 :=
  batchRun_one_result_per_record halfScorer ["A", "B"] 2 ["t1", "t2", "t3"] (by norm_num)

/-! ## Claim C6 -/

/-- **C6.** For every batch size ≥ 1, fixed input sequence and candidate
label set, the batched prediction loop yields exactly the results of
running with batch size 1 — the batch size has no effect on any score. -/
theorem batchRun_batchSize_irrelevant
    (score : String → List String → List (String × ℚ)) (labels : List String)
    (batchSize : ℕ) (texts : List String) (_hbs : 1 ≤ batchSize) :
    batchRun score labels batchSize texts = batchRun score labels 1 texts := by
  rw [batchRun_eq_map, batchRun_eq_map]

/-- Witness for C6 with two records and batch size 3. -/
theorem batchRun_batchSize_irrelevant_witness :
    batchRun halfScorer ["A"] 3 ["t1", "t2"] = batchRun halfScorer ["A"] 1 ["t1", "t2"] :=
  batchRun_batchSize_irrelevant halfScorer ["A"] 3 ["t1", "t2"] (by norm_num)

/-! ## Claim C8 -/

/-- **C8.** `save_model_predictions` writes a tabular file whose columns
are, in order: `text`, one column per candidate label in declared order,
`predicted_label`, and — only when the input data has the ground-truth
column — `hand_annotated`; it creates the destination's parent directory if
absent and overwrites any existing file at the destination rather than
appending. -/
theorem saveModelPredictions_columns_and_io
    (candidateLabels : List String) (hasGT : Bool)
    (h1 : "predicted_label" ∉ candidateLabels)
    (h2 : "hand_annotated" ∉ candidateLabels)
    (fs : FileSystem) (fileName content : String) :
    resultColumns candidateLabels hasGT =
      "text" :: (candidateLabels ++ "predicted_label" ::
        (if hasGT then ["hand_annotated"] else [])) ∧
    "Outputs" ∈ (saveOutputFile fs fileName content).dirs ∧
    readFile (saveOutputFile fs fileName content) ("Outputs/" ++ fileName) =
      some content := by
  have hp : "predicted_label" ∉ "text" :: candidateLabels := by
    intro h
    rcases List.mem_cons.mp h with h | h
    · exact absurd h (by decide)
    · exact h1 h
  have hh : "hand_annotated" ∉ ("text" :: candidateLabels) ++ ["predicted_label"] := by
    intro h
    rcases List.mem_append.mp h with h | h
    · rcases List.mem_cons.mp h with h | h
      · exact absurd h (by decide)
      · exact h2 h
    · rcases List.mem_cons.mp h with h | h
      · exact absurd h (by decide)
      · exact absurd h (List.not_mem_nil _)
  refine ⟨?_, ?_, ?_⟩
  · simp only [resultColumns, dfAssignColumn, if_neg hp]
    cases hasGT with
    | false => simp
    | true =>
        simp only [if_true, if_neg hh]
        simp
  · unfold saveOutputFile makedirs writeFile
    by_cases hd : "Outputs" ∈ fs.dirs
    · simp only [if_pos hd]
      exact hd
    · simp only [if_neg hd]
      exact List.mem_cons_self _ _
  · unfold saveOutputFile makedirs writeFile readFile
    by_cases hd : "Outputs" ∈ fs.dirs <;>
      simp [List.lookup, hd]

/-- Witness for C8 with candidate labels `["pro", "anti"]`, a present
ground-truth column, and an initially empty file system. -/
theorem saveModelPredictions_columns_and_io_witness :
    resultColumns ["pro", "anti"] true =
      ["text", "pro", "anti", "predicted_label", "hand_annotated"] ∧
    "Outputs" ∈ (saveOutputFile ⟨[], []⟩ "out.csv" "data").dirs ∧
    readFile (saveOutputFile ⟨[], []⟩ "out.csv" "data") ("Outputs/" ++ "out.csv") =
      some "data" := by
  have h := saveModelPredictions_columns_and_io ["pro", "anti"] true
    (by decide) (by decide) ⟨[], []⟩ "out.csv" "data"
  simpa using h

end ZSL
